import Mathlib

/-!
# bill: the argument validator and the bill calculator of `cmd/root.go`

The command has two functions of its own, `validateBillArgs` and `BillImpl`,
wired into `rootCmd` (`Args: validateBillArgs`, `Run: BillImpl`) and started by
`Execute`.  `BillImpl` works on Go `float32` values and calls two standard
library routines, `strconv.ParseFloat(_, 32)` and `fmt.Println`.

The development below embeds

* the `float32` values and the two operations the calculator uses (`+`, `/`)
  together with the conversion `float32(n)` of the `int8` flag, as exact
  IEEE-754 binary32 arithmetic (round to nearest, ties to even) on integers;
* `strconv.ParseFloat(_, 32)` and the `%v` rendering of a `float32` used by
  `fmt.Println`, following the Go library; what the parser returns for a string
  of more than 800 bytes is left as a parameter (`long`) of the command;
* `validateBillArgs`, `BillImpl`, and the way `rootCmd`/`Execute` chain them.
-/

namespace Bill

/-! ## float32 -/

/-- A Go `float32`: an IEEE-754 binary32 value.  A finite value is its sign and
the 31 low bits of its encoding (biased exponent in bits 23..30, fraction in
bits 0..22), which is below `0x7F800000 = 2139095040`.  All NaNs are one value. -/
inductive F32 where
  | nan : F32
  | inf (neg : Bool) : F32
  | fin (neg : Bool) (mag : Fin 2139095040) : F32
deriving DecidableEq, Repr

/-- The float32 `+0`, the zero value of a Go `float32` variable. -/
def F32.posZero : F32 := .fin false ⟨0, by decide⟩

/-- The float32 `-0`. -/
def F32.negZero : F32 := .fin true ⟨0, by decide⟩

/-- The magnitude encoded by the 31 low bits `m`, counted in units of `2^-149`
(the smallest subnormal): `frac` for a subnormal, `(2^23 + frac) * 2^(exp-1)`
for a normal number. -/
def magUnits (m : Nat) : Nat :=
  if m / 2 ^ 23 = 0 then m % 2 ^ 23 else (2 ^ 23 + m % 2 ^ 23) * 2 ^ (m / 2 ^ 23 - 1)

/-- Helper of `bitLength`: halves `n` until it is zero, counting in `acc`. -/
def bitLengthAux : Nat → Nat → Nat → Nat
  | 0, _, acc => acc
  | fuel + 1, n, acc => if n = 0 then acc else bitLengthAux fuel (n / 2) (acc + 1)

/-- Number of binary digits of `n` (0 for 0). -/
def bitLength (n : Nat) : Nat := bitLengthAux n n 0

/-- Round the non-negative rational `N / d`, given in units of `2^-149`, to 24
significant bits, ties to even, and return the float32 encoding of the result
(possibly beyond the largest finite one).  The quotient is cut to 24 significant
bits (`shift` low bits dropped); the encoding is then `shift * 2^23 + mantissa`,
which also carries a mantissa that rounds up to `2^24` into the next exponent. -/
def roundBits (N d : Nat) : Nat :=
  let q0 := N / d
  let shift := if q0 < 2 ^ 24 then 0 else bitLength q0 - 24
  let D := d * 2 ^ shift
  let q := N / D
  let r := N % D
  let q1 := if D < 2 * r ∨ (2 * r = D ∧ q % 2 = 1) then q + 1 else q
  shift * 2 ^ 23 + q1

/-- The float32 of sign `neg` nearest to the rational `N / d` (in units of
`2^-149`), ties to even; a magnitude that rounds past the largest finite float32
becomes an infinity. -/
def roundUnits (neg : Bool) (N d : Nat) : F32 :=
  if h : roundBits N d < 2139095040 then F32.fin neg ⟨roundBits N d, h⟩ else F32.inf neg

/-- The conversion `float32(n)` of an integer (exact for every `int8`). -/
def ofInt (n : Int) : F32 := roundUnits (decide (n < 0)) (n.natAbs * 2 ^ 149) 1

/-- Whether the float32 `x` is the integer `n` exactly. -/
def isExactInt (n : Int) (x : F32) : Bool :=
  match x with
  | .fin neg m => (neg == decide (n < 0)) && decide (magUnits m.val = n.natAbs * 2 ^ 149)
  | _ => false

/-- The float32 addition `x + y`. -/
def F32.add : F32 → F32 → F32
  | .nan, _ => .nan
  | _, .nan => .nan
  | .inf a, .inf b => if a = b then .inf a else .nan
  | .inf a, .fin _ _ => .inf a
  | .fin _ _, .inf b => .inf b
  | .fin a x, .fin b y =>
    let kx := magUnits x.val
    let ky := magUnits y.val
    if a = b then roundUnits a (kx + ky) 1
    else if kx = ky then F32.posZero
    else if ky < kx then roundUnits a (kx - ky) 1
    else roundUnits b (ky - kx) 1

/-- The float32 division `x / y`; dividing by a zero gives an infinity, or NaN
when the dividend is a zero too. -/
def F32.div : F32 → F32 → F32
  | .nan, _ => .nan
  | _, .nan => .nan
  | .inf _, .inf _ => .nan
  | .inf a, .fin b _ => .inf (xor a b)
  | .fin a _, .inf b => .fin (xor a b) ⟨0, by decide⟩
  | .fin a x, .fin b y =>
    if magUnits y.val = 0 then
      if magUnits x.val = 0 then .nan else .inf (xor a b)
    else roundUnits (xor a b) (magUnits x.val * 2 ^ 149) (magUnits y.val)

/-- Whether the value is `+0` or `-0`. -/
def F32.isZero : F32 → Bool
  | .fin _ m => decide (m.val = 0)
  | _ => false

/-- Whether the value is neither NaN nor an infinity. -/
def F32.isFinite : F32 → Bool
  | .fin _ _ => true
  | _ => false

/-- The sign bit of an infinity or of a finite value (`false` for NaN). -/
def F32.signBit : F32 → Bool
  | .inf neg => neg
  | .fin neg _ => neg
  | .nan => false

/-- Whether the value is a number below zero (`-0` and NaN are not). -/
def F32.isNegative : F32 → Bool
  | .inf neg => neg
  | .fin neg m => neg && decide (m.val ≠ 0)
  | .nan => false

/-- Equality of float32 values as numbers: the same value, or the two zeros
(`+0` and `-0` are one number). -/
def F32.numEq (x y : F32) : Prop := x = y ∨ (x.isZero = true ∧ y.isZero = true)

/-! ## strconv.ParseFloat(s, 32) -/

/-- The two errors of `strconv.ParseFloat`: `ErrSyntax` and `ErrRange`. -/
inductive NumError where
  | errSyntax : NumError
  | errRange : NumError
deriving DecidableEq, Repr

/-- Go's `lower(c) = c | ('x' - 'X')` on a byte. -/
def lower (c : Nat) : Nat := c ||| 32

/-- Go's `commonPrefixLenIgnoreCase(s, pre)`; `pre` is lower case. -/
def commonPrefixLenIgnoreCase : List Nat → List Nat → Nat
  | c :: s, p :: pre =>
    let c1 := if 65 ≤ c ∧ c ≤ 90 then c + 32 else c
    if c1 = p then commonPrefixLenIgnoreCase s pre + 1 else 0
  | _, _ => 0

/-- The bytes of `"infinity"`. -/
def infinityBytes : List Nat := [105, 110, 102, 105, 110, 105, 116, 121]

/-- The bytes of `"nan"`. -/
def nanBytes : List Nat := [110, 97, 110]

/-- The `inf` branch of `special`: the length matched of an optionally signed
`inf` or `infinity`. -/
def specialInf (neg : Bool) (nsign : Nat) (s : List Nat) : Option (F32 × Nat) :=
  let n0 := commonPrefixLenIgnoreCase s infinityBytes
  let n := if 3 < n0 ∧ n0 < 8 then 3 else n0
  if n = 3 ∨ n = 8 then some (F32.inf neg, nsign + n) else none

/-- Go's `special(s)`: the value and the number of bytes read when `s` starts
with an (optionally signed) infinity or with an unsigned NaN. -/
def special (s : List Nat) : Option (F32 × Nat) :=
  match s with
  | [] => none
  | c :: rest =>
    if c = 43 ∨ c = 45 then specialInf (decide (c = 45)) 1 rest
    else if c = 105 ∨ c = 73 then specialInf false 0 s
    else if c = 110 ∨ c = 78 then
      if commonPrefixLenIgnoreCase s nanBytes = 3 then some (F32.nan, 3) else none
    else none

/-- The variables of the digit loop of `readFloat`.  The mantissa is kept
exactly: the library keeps its first 19 digits and a `trunc` flag and still
returns the correctly rounded value, which is what the model computes from the
exact digits. -/
structure ReadState where
  mantissa : Nat
  nd : Nat
  dp : Int
  sawdot : Bool
  sawdigits : Bool
  underscores : Bool
deriving DecidableEq, Repr

/-- The digit loop of `readFloat`: returns the state at the first byte that
ends the loop, and the bytes from there on. -/
def readDigits (hex : Bool) : List Nat → ReadState → ReadState × List Nat
  | [], st => (st, [])
  | c :: cs, st =>
    if c = 95 then readDigits hex cs { st with underscores := true }
    else if c = 46 then
      if st.sawdot then (st, c :: cs)
      else readDigits hex cs { st with sawdot := true, dp := st.nd }
    else if 48 ≤ c ∧ c ≤ 57 then
      if c = 48 ∧ st.nd = 0 then
        readDigits hex cs { st with sawdigits := true, dp := st.dp - 1 }
      else
        readDigits hex cs { st with
          sawdigits := true, nd := st.nd + 1
          mantissa := st.mantissa * (if hex then 16 else 10) + (c - 48) }
    else if hex ∧ 97 ≤ lower c ∧ lower c ≤ 102 then
      readDigits hex cs { st with
        sawdigits := true, nd := st.nd + 1
        mantissa := st.mantissa * 16 + (lower c - 97 + 10) }
    else (st, c :: cs)

/-- The exponent digit loop of `readFloat`: accumulates `e` (no longer once it
has reached 10000), notes underscores, and returns the bytes left. -/
def readExpDigits : List Nat → Nat → Bool → Nat × Bool × List Nat
  | [], e, us => (e, us, [])
  | c :: cs, e, us =>
    if c = 95 then readExpDigits cs e true
    else if 48 ≤ c ∧ c ≤ 57 then
      readExpDigits cs (if e < 10000 then e * 10 + (c - 48) else e) us
    else (e, us, c :: cs)

/-- The number loop of `underscoreOK`; `saw` is the last byte class seen:
`0` a digit or base prefix, `1` an underscore, `2` anything else or the start. -/
def underscoreLoop (hex : Bool) : List Nat → Nat → Bool
  | [], saw => decide (saw ≠ 1)
  | c :: cs, saw =>
    if (48 ≤ c ∧ c ≤ 57) ∨ (hex ∧ 97 ≤ lower c ∧ lower c ≤ 102) then underscoreLoop hex cs 0
    else if c = 95 then
      if saw ≠ 0 then false else underscoreLoop hex cs 1
    else if saw = 1 then false
    else underscoreLoop hex cs 2

/-- Go's `underscoreOK(s)`: underscores only between digits, or between a base
prefix and a digit. -/
def underscoreOK (s : List Nat) : Bool :=
  let s1 := match s with
    | c :: rest => if c = 45 ∨ c = 43 then rest else s
    | [] => s
  match s1 with
  | c0 :: c1 :: rest =>
    if c0 = 48 ∧ (lower c1 = 98 ∨ lower c1 = 111 ∨ lower c1 = 120) then
      underscoreLoop (decide (lower c1 = 120)) rest 0
    else underscoreLoop false s1 2
  | _ => underscoreLoop false s1 2

/-- What `readFloat` returns when it succeeds: the mantissa, the exponent of the
base (10, or 2 for a hexadecimal literal), the sign, and the bytes left. -/
structure ReadFloat where
  mantissa : Nat
  exp : Int
  neg : Bool
  hex : Bool
  rest : List Nat
deriving DecidableEq, Repr

/-- Go's `readFloat(s)`; `none` is `ok = false`. -/
def readFloat (s : List Nat) : Option ReadFloat :=
  match s with
  | [] => none
  | c :: cs =>
    -- optional sign
    let neg := decide (c = 45)
    let s1 := if c = 43 ∨ c = 45 then cs else s
    -- base prefix: "0x" followed by at least one byte
    let hex := match s1 with
      | c0 :: c1 :: _ :: _ => decide (c0 = 48 ∧ lower c1 = 120)
      | _ => false
    let s2 := if hex then s1.drop 2 else s1
    let (st, s3) := readDigits hex s2 ⟨0, 0, 0, false, false, false⟩
    if ¬ st.sawdigits then none
    else
      let dp0 : Int := if st.sawdot then st.dp else st.nd
      let dp1 : Int := if hex then dp0 * 4 else dp0
      let ndMant : Int := if hex then st.nd * 4 else st.nd
      let expChar := if hex then 112 else 101
      let finish (dp : Int) (us : Bool) (rest : List Nat) : Option ReadFloat :=
        if us ∧ ¬ underscoreOK (s.take (s.length - rest.length)) then none
        else some ⟨st.mantissa, if st.mantissa ≠ 0 then dp - ndMant else 0, neg, hex, rest⟩
      match s3 with
      | e :: s4 =>
        if lower e = expChar then
          match s4 with
          | [] => none
          | g :: s5 =>
            let esign : Int := if g = 45 then -1 else 1
            let s6 := if g = 43 ∨ g = 45 then s5 else s4
            match s6 with
            | [] => none
            | d :: _ =>
              if d < 48 ∨ 57 < d then none
              else
                let (e1, us, rest) := readExpDigits s6 0 st.underscores
                finish (dp1 + e1 * esign) us rest
        else if hex then none
        else finish dp1 st.underscores s3
      | [] => if hex then none else finish dp1 st.underscores s3

/-- The correctly rounded float32 of `mantissa * base^exp` (base 10, or 2 for a
hexadecimal literal). -/
def convertFloat (r : ReadFloat) : F32 :=
  if r.hex then
    if 0 ≤ r.exp + 149 then roundUnits r.neg (r.mantissa * 2 ^ (r.exp + 149).toNat) 1
    else roundUnits r.neg r.mantissa (2 ^ (-(r.exp + 149)).toNat)
  else
    if 0 ≤ r.exp then roundUnits r.neg (r.mantissa * 10 ^ r.exp.toNat * 2 ^ 149) 1
    else roundUnits r.neg (r.mantissa * 2 ^ 149) (10 ^ (-r.exp).toNat)

/-- The bytes of a string (for the ASCII strings the grammar accepts, the code
points of its characters). -/
def bytesOf (s : String) : List Nat := s.data.map Char.toNat

/-- The float32 of a string read as a whole by `special` and `readFloat` and
rounded correctly: the string must be a special value or a floating-point
literal (`ErrSyntax` otherwise), and a literal whose value rounds to an infinity
is `ErrRange`.  This is what `strconv.ParseFloat(s, 32)` followed by the
conversion to `float32` returns for a string of at most 800 bytes. -/
def parseLiteral (s : String) : Except NumError F32 :=
  let b := bytesOf s
  match special b with
  | some (f, n) => if n = b.length then .ok f else .error .errSyntax
  | none =>
    match readFloat b with
    | none => .error .errSyntax
    | some r =>
      if r.rest ≠ [] then .error .errSyntax
      else
        match convertFloat r with
        | .fin neg m => .ok (.fin neg m)
        | _ => .error .errRange

/-- The longest string for which `parseLiteral` is the library's result: the
size of the digit buffer of the library's decimal conversion. -/
def maxLiteralLength : Nat := 800

/-- Go's `strconv.ParseFloat(s, 32)` followed by the conversion to `float32`.
For a string of at most 800 bytes it is `parseLiteral s`.  A longer string can
hold more digits than the 800 the library's decimal conversion keeps, and the
library's result is then not always the correctly rounded value; it is not
modelled but taken as the parameter `long`. -/
def parseFloat (long : String → Except NumError F32) (s : String) : Except NumError F32 :=
  if s.length ≤ maxLiteralLength then parseLiteral s else long s

/-! ## fmt.Println of a float32 -/

/-- Whether `10^e ≤ k * 2^-149`. -/
def geTenPow (k : Nat) (e : Int) : Bool :=
  if 0 ≤ e then decide (10 ^ e.toNat * 2 ^ 149 ≤ k) else decide (2 ^ 149 ≤ k * 10 ^ (-e).toNat)

/-- The decimal point position `dp` of the positive value `k * 2^-149`:
`10^(dp-1) ≤ value < 10^dp`.  A float32 lies between `10^-45` and `10^39`. -/
def decimalPoint (k : Nat) : Int :=
  ((List.range 84).countP (fun i => geTenPow k ((i : Int) - 45)) : Int) - 45

/-- The decimal `c * 10^p` read back as a float32 (correctly rounded). -/
def decimalToF32 (neg : Bool) (c : Nat) (p : Int) : F32 :=
  convertFloat ⟨c, p, neg, false, []⟩

/-- The decimal mantissa `c` for which `c * 10^p` is the best rendering of the
float32 of sign `neg` and encoding `m` with the last digit at `10^p`, if there is
one: of the two multiples of `10^p` around the value, one that reads back as the
same float32; when both do, the nearer one, and the even one on a tie. -/
def candidate (neg : Bool) (m : Fin 2139095040) (p : Int) : Option Nat :=
  let k := magUnits m.val
  let A := if 0 ≤ p then k else k * 10 ^ (-p).toNat
  let B := if 0 ≤ p then 2 ^ 149 * 10 ^ p.toNat else 2 ^ 149
  let lo := A / B
  let r := A % B
  let okLo := decide (decimalToF32 neg lo p = F32.fin neg m)
  let okHi := decide (r ≠ 0) && decide (decimalToF32 neg (lo + 1) p = F32.fin neg m)
  if okLo && okHi then
    if 2 * r < B ∨ (2 * r = B ∧ lo % 2 = 0) then some lo else some (lo + 1)
  else if okLo then some lo
  else if okHi then some (lo + 1)
  else none

/-- The shortest decimal that reads back as the non-zero float32 `(neg, m)`:
the mantissa `c` and exponent `p` of `c * 10^p`, with the fewest digits (at most
9 are needed), as `strconv` computes it for precision `-1`. -/
def shortestDecimal (neg : Bool) (m : Fin 2139095040) : Nat × Int :=
  let dp := decimalPoint (magUnits m.val)
  ((List.range 9).findSome? (fun i =>
      (candidate neg m (dp - ((i : Int) + 1))).map (fun c => (c, dp - ((i : Int) + 1))))).getD (0, 0)

/-- The character of a decimal digit. -/
def digitChar : Nat → Char
  | 0 => '0' | 1 => '1' | 2 => '2' | 3 => '3' | 4 => '4'
  | 5 => '5' | 6 => '6' | 7 => '7' | 8 => '8' | _ => '9'

/-- Helper of `decDigits`, with fuel. -/
def decDigitsAux : Nat → Nat → List Char → List Char
  | 0, _, acc => acc
  | fuel + 1, n, acc =>
    if n < 10 then digitChar n :: acc else decDigitsAux fuel (n / 10) (digitChar (n % 10) :: acc)

/-- The decimal digits of `n`, most significant first. -/
def decDigits (n : Nat) : List Char := decDigitsAux (n + 1) n []

/-- Drop the zeros at the end of a digit string. -/
def stripZeros (ds : List Char) : List Char :=
  (ds.reverse.dropWhile (fun c => c == '0')).reverse

/-- Go's `fmtE` at precision `nd - 1`: `d.ddde±dd` for the digits `ds` and the
decimal point position `dp`. -/
def fmtE (neg : Bool) (ds : List Char) (dp : Int) : List Char :=
  let sign := if neg then ['-'] else []
  let first := match ds with
    | [] => ['0']
    | d :: _ => [d]
  let more := if 1 < ds.length then '.' :: ds.drop 1 else []
  let exp : Int := if ds.length = 0 then 0 else dp - 1
  let esign := if exp < 0 then '-' else '+'
  let e := exp.natAbs
  let edigits :=
    if e < 10 then ['0', digitChar e]
    else if e < 100 then [digitChar (e / 10), digitChar (e % 10)]
    else [digitChar (e / 100), digitChar (e / 10 % 10), digitChar (e % 10)]
  sign ++ first ++ more ++ ['e', esign] ++ edigits

/-- Go's `fmtF` at precision `max (nd - dp) 0`: the digits `ds` with the
decimal point at `dp`, padded with zeros. -/
def fmtF (neg : Bool) (ds : List Char) (dp : Int) : List Char :=
  let sign := if neg then ['-'] else []
  let int :=
    if 0 < dp then ds.take dp.toNat ++ List.replicate (dp.toNat - ds.length) '0' else ['0']
  let prec := ((ds.length : Int) - dp).toNat
  let frac :=
    if 0 < prec then
      '.' :: (List.range prec).map (fun i =>
        let j := dp + (i : Int)
        if 0 ≤ j ∧ j < ds.length then ds.getD j.toNat '0' else '0')
    else []
  sign ++ int ++ frac

/-- The text `fmt.Println` writes for a `float32` operand: the verb `%v`, that
is `strconv.FormatFloat(x, 'g', -1, 32)` (shortest digits that read back as `x`;
exponent form when the decimal exponent is below -4 or at least 6), with `+Inf`
keeping its sign. -/
def formatFloat32 : F32 → List Char
  | .nan => ['N', 'a', 'N']
  | .inf neg => (if neg then '-' else '+') :: ['I', 'n', 'f']
  | .fin neg m =>
    if m.val = 0 then fmtF neg [] 0
    else
      let (c, p) := shortestDecimal neg m
      let all := decDigits c
      let ds := stripZeros all
      let dp : Int := (all.length : Int) + p
      let exp := dp - 1
      if exp < -4 ∨ 6 ≤ exp then fmtE neg ds dp else fmtF neg ds dp

/-- The line `fmt.Println(label, x)` writes for a string and a `float32`: the
operands separated by a space, then a newline. -/
def Println (label : String) (x : F32) : String :=
  label ++ " " ++ String.mk (formatFloat32 x) ++ "\n"

/-! ## cmd/root.go -/

/-- The message of the error `validateBillArgs` returns. -/
def validateBillArgsMessage : String :=
  "Please provide a principle amount or list of items to split for the bill"

/-- The argument validator `validateBillArgs(cmd, args)`, with the flag
variable `s` (the splits) it reads made a parameter: an error when there is
neither a positional argument nor a split, `nil` otherwise. -/
def validateBillArgs (args : List String) (s : List F32) : Except String Unit :=
  if args.length = 0 ∧ s.length = 0 then .error validateBillArgsMessage else .ok ()

/-- How one run of the command ends. -/
inductive Outcome where
  /-- `rootCmd.Execute()` returned the validator's error: `Execute` prints it
  and calls `os.Exit(1)`; `BillImpl` has not run. -/
  | invalidArgs (err : String) : Outcome
  /-- `BillImpl` called `log.Fatal(err)`: the error goes to the log and the
  process exits with status 1. -/
  | fatal (err : NumError) : Outcome
  /-- `BillImpl` returned after writing `out` to standard output. -/
  | printed (out : String) : Outcome
deriving DecidableEq, Repr

/-- What the run wrote to standard output. -/
def Outcome.stdout : Outcome → String
  | .invalidArgs err => err ++ "\n"
  | .fatal _ => ""
  | .printed out => out

/-- The exit status of the run. -/
def Outcome.exitCode : Outcome → Nat
  | .invalidArgs _ => 1
  | .fatal _ => 1
  | .printed _ => 0

/-- Step 1 of `BillImpl`: `principle` is the zero value of a `float32` when
there is no positional argument, and otherwise `args[0]` parsed by
`strconv.ParseFloat(args[0], 32)`, whose error is fatal. -/
def principleOf (long : String → Except NumError F32) (args : List String) :
    Except NumError F32 :=
  match args with
  | [] => .ok F32.posZero
  | a :: _ => parseFloat long a

/-- The loop `for i := range s { split += s[i] }` of `BillImpl`. -/
def sumLoop : List F32 → F32 → F32
  | [], split => split
  | x :: xs, split => sumLoop xs (split.add x)

/-- Step 2 of `BillImpl`: `split` stays 0 when `s` is empty, and is otherwise
the sum of the splits divided by `float32(n)`. -/
def splitOf (s : List F32) (n : Int) : F32 :=
  if 0 < s.length then (sumLoop s F32.posZero).div (ofInt n) else F32.posZero

/-- Step 3 of `BillImpl`: `result := principle + split`. -/
def resultOf (principle : F32) (s : List F32) (n : Int) : F32 :=
  principle.add (splitOf s n)

/-- The default of the flag `numPeople` (`Int8VarP(&n, "numPeople", "n", 1, ...)`
in `init`): the value of `n` when the flag is not given. -/
def defaultNumPeople : Int := 1

/-- The label `BillImpl` prints before the result. -/
def billLabel : String := "The amount to pay is: "

/-- The command body `BillImpl(cmd, args)`, with the flag variables `s` (splits)
and `n` (numPeople, an `int8`) it reads made parameters; `long` is what the
library parser returns for strings of more than 800 bytes. -/
def BillImpl (long : String → Except NumError F32) (args : List String) (s : List F32)
    (n : Int) : Outcome :=
  match principleOf long args with
  | .error err => .fatal err
  | .ok principle => .printed (Println billLabel (resultOf principle s n))

/-- The command `rootCmd` run by `Execute()`: cobra calls `Args`
(`validateBillArgs`) on the positional arguments and runs `Run` (`BillImpl`)
only when it returned `nil`. -/
def Execute (long : String → Except NumError F32) (args : List String) (s : List F32)
    (n : Int) : Outcome :=
  match validateBillArgs args s with
  | .error err => .invalidArgs err
  | .ok _ => BillImpl long args s n

/-- The sum of the splits as the specification writes it, `sum(splits)`: the
float32 sum of the sequence, taken in order from 0. -/
def sumSplits (splits : List F32) : F32 := splits.foldl F32.add F32.posZero

/-- The value the specification gives for the computation:
`principal + (sum(splits) / numPeople)`, where an absent principal counts as 0
and the split term is 0 when there are no splits. -/
def specResult (principal : Option F32) (splits : List F32) (numPeople : Int) : F32 :=
  (principal.getD F32.posZero).add
    (if splits = [] then F32.posZero else (sumSplits splits).div (ofInt numPeople))

/-! ## The principal as the specification reads it -/

/-- The number written by a run of decimal digits. -/
def digitsValue (ds : List Nat) : Nat := ds.foldl (fun v c => v * 10 + (c - 48)) 0

/-- The parts of a decimal number: its sign, the digits before and after the
point, and the sign and the digits of the exponent (no digits without one). -/
structure Decimal where
  neg : Bool
  intDigits : List Nat
  fracDigits : List Nat
  expNeg : Bool
  expDigits : List Nat
deriving DecidableEq, Repr

/-- The digits of the decimal number as one integer. -/
def Decimal.mantissa (d : Decimal) : Nat := digitsValue (d.intDigits ++ d.fracDigits)

deriving instance DecidableEq for Except

set_option maxRecDepth 8000

/-! ## Lemmas on the float32 arithmetic -/

theorem bitLengthAux_zero (fuel acc : Nat) : bitLengthAux fuel 0 acc = acc := by
  cases fuel <;> simp [bitLengthAux]

theorem bitLengthAux_eq (fuel : Nat) :
    ∀ n acc k, 2 ^ k ≤ n → n < 2 ^ (k + 1) → k < fuel →
      bitLengthAux fuel n acc = acc + k + 1 := by
  induction fuel with
  | zero => intro n acc k _ _ hk; omega
  | succ fuel ih =>
    intro n acc k h1 h2 hk
    have hn : n ≠ 0 := by
      have := Nat.pow_pos (n := k) (show 0 < 2 by decide)
      omega
    rw [bitLengthAux, if_neg hn]
    cases k with
    | zero =>
      have : n = 1 := by simp at h1 h2; omega
      subst this
      simp [bitLengthAux_zero]
    | succ k =>
      have h1' : 2 ^ k ≤ n / 2 := by
        rw [Nat.le_div_iff_mul_le (by decide)]
        rw [pow_succ] at h1; exact h1
      have h2' : n / 2 < 2 ^ (k + 1) := by
        rw [Nat.div_lt_iff_lt_mul (by decide)]
        rw [pow_succ] at h2; exact h2
      rw [ih (n / 2) (acc + 1) k h1' h2' (by omega)]
      omega

theorem bitLength_eq (n k : Nat) (h1 : 2 ^ k ≤ n) (h2 : n < 2 ^ (k + 1)) :
    bitLength n = k + 1 := by
  have hk : k < n := lt_of_lt_of_le (Nat.lt_two_pow k) h1
  rw [bitLength, bitLengthAux_eq n n 0 k h1 h2 hk]
  omega

/-- A magnitude that has at most 24 significant bits is its own rounding. -/
theorem roundBits_exact (q shift : Nat) (hq : q < 2 ^ 24) (hs : shift = 0 ∨ 2 ^ 23 ≤ q) :
    roundBits (q * 2 ^ shift) 1 = shift * 2 ^ 23 + q := by
  have hpos : 0 < 2 ^ shift := Nat.pow_pos (by decide)
  have hshift : (if q * 2 ^ shift / 1 < 2 ^ 24 then 0 else bitLength (q * 2 ^ shift / 1) - 24)
      = shift := by
    rw [Nat.div_one]
    split
    · next h =>
      rcases hs with hs | hs
      · exact hs.symm
      · by_contra hne
        have : 2 ≤ 2 ^ shift := by
          calc 2 = 2 ^ 1 := by norm_num
            _ ≤ 2 ^ shift := Nat.pow_le_pow_right (by decide) (by omega)
        have : 2 ^ 23 * 2 ≤ q * 2 ^ shift := Nat.mul_le_mul hs this
        norm_num at h this
        omega
    · next h =>
      rcases hs with hs | hs
      · subst hs; simp at h; omega
      · have h1 : 2 ^ (23 + shift) ≤ q * 2 ^ shift := by
          rw [pow_add]; exact Nat.mul_le_mul_right _ hs
        have h2 : q * 2 ^ shift < 2 ^ (23 + shift + 1) := by
          have : 2 ^ (23 + shift + 1) = 2 ^ 24 * 2 ^ shift := by
            rw [show 23 + shift + 1 = 24 + shift by omega, pow_add]
          rw [this]
          exact Nat.mul_lt_mul_of_pos_right hq hpos
        rw [bitLength_eq _ _ h1 h2]
        omega
  unfold roundBits
  simp only [hshift]
  rw [one_mul, Nat.mul_div_cancel _ hpos, Nat.mul_mod_left]
  have h1 : ¬ (2 ^ shift < 2 * 0 ∨ (2 * 0 = 2 ^ shift ∧ q % 2 = 1)) := by
    rintro (h | ⟨h, _⟩) <;> omega
  rw [if_neg h1]

theorem magUnits_eq_zero_iff (m : Nat) : magUnits m = 0 ↔ m = 0 := by
  unfold magUnits
  constructor
  · intro h
    split at h
    · next he => have := Nat.div_add_mod m (2 ^ 23); rw [he] at this; omega
    · next he =>
      have hp : 0 < 2 ^ (m / 2 ^ 23 - 1) := Nat.pow_pos (by decide)
      have := Nat.mul_pos (show 0 < 2 ^ 23 + m % 2 ^ 23 by positivity) hp
      omega
  · intro h; subst h; simp

theorem roundBits_magUnits (m : Nat) :
    roundBits (magUnits m) 1 = m := by
  have hdm := Nat.div_add_mod m (2 ^ 23)
  have hf : m % 2 ^ 23 < 2 ^ 23 := Nat.mod_lt _ (by positivity)
  unfold magUnits
  split
  · next he =>
    have := roundBits_exact (m % 2 ^ 23) 0 (by omega) (Or.inl rfl)
    simp only [pow_zero, mul_one, zero_mul, zero_add] at this
    rw [this]; rw [he] at hdm; omega
  · next he =>
    rw [roundBits_exact (2 ^ 23 + m % 2 ^ 23) (m / 2 ^ 23 - 1) (by omega) (Or.inr (by omega))]
    have : 1 ≤ m / 2 ^ 23 := Nat.one_le_iff_ne_zero.mpr he
    have h2 : (m / 2 ^ 23 - 1) * 2 ^ 23 + 2 ^ 23 = 2 ^ 23 * (m / 2 ^ 23) := by
      rw [Nat.sub_mul, one_mul, Nat.sub_add_cancel (Nat.le_mul_of_pos_left _ this), mul_comm]
    omega

/-- Rounding the exact magnitude of a float32 gives that float32 back. -/
theorem roundUnits_magUnits (neg : Bool) (m : Fin 2139095040) :
    roundUnits neg (magUnits m.val) 1 = F32.fin neg m := by
  unfold roundUnits
  have h := roundBits_magUnits m.val
  rw [dif_pos (by rw [h]; exact m.isLt)]
  congr 1
  exact Fin.ext h

/-- Rounding depends on the quotient only. -/
theorem roundBits_scale (N d c : Nat) (hc : 0 < c) :
    roundBits (N * c) (d * c) = roundBits N d := by
  unfold roundBits
  simp only [Nat.mul_div_mul_right _ _ hc]
  generalize (if N / d < 2 ^ 24 then 0 else bitLength (N / d) - 24) = shift
  have hD : d * c * 2 ^ shift = d * 2 ^ shift * c := by ring
  rw [hD, Nat.mul_div_mul_right _ _ hc, Nat.mul_mod_mul_right]
  have e1 : (d * 2 ^ shift * c < 2 * (N % (d * 2 ^ shift) * c)) ↔
      (d * 2 ^ shift < 2 * (N % (d * 2 ^ shift))) := by
    rw [← mul_assoc]; exact Nat.mul_lt_mul_right hc
  have e2 : (2 * (N % (d * 2 ^ shift) * c) = d * 2 ^ shift * c) ↔
      (2 * (N % (d * 2 ^ shift)) = d * 2 ^ shift) := by
    rw [← mul_assoc]; exact Nat.mul_left_inj (by omega)
  simp only [e1, e2]

theorem roundUnits_scale (neg : Bool) (N d c : Nat) (hc : 0 < c) :
    roundUnits neg (N * c) (d * c) = roundUnits neg N d := by
  unfold roundUnits
  simp only [roundBits_scale N d c hc]

theorem roundBits_one_eq_zero (N : Nat) (h : roundBits N 1 = 0) : N = 0 := by
  unfold roundBits at h
  simp only [Nat.div_one, one_mul] at h
  have h1 := (Nat.add_eq_zero_iff.mp h).1
  have h2 := (Nat.add_eq_zero_iff.mp h).2
  have hs : (if N < 2 ^ 24 then 0 else bitLength N - 24) = 0 := by
    rcases Nat.mul_eq_zero.mp h1 with h | h
    · exact h
    · norm_num at h
  rw [hs] at h2
  simp only [pow_zero, Nat.mod_one, mul_zero] at h2
  split at h2 <;> omega

/-! ## The rounding is to nearest -/

theorem bitLength_spec (n : Nat) (hn : 0 < n) :
    2 ^ (bitLength n - 1) ≤ n ∧ n < 2 ^ bitLength n := by
  have h1 : 2 ^ Nat.log2 n ≤ n := Nat.log2_self_le (by omega)
  have h2 : n < 2 ^ (Nat.log2 n + 1) := Nat.lt_log2_self
  rw [bitLength_eq n (Nat.log2 n) h1 h2]
  exact ⟨h1, h2⟩

/-- The parts of `roundBits N d`: a shift, and the quotient `q` and remainder `r`
of `N` by `d * 2^shift`, with `q` below `2^24`, and at least `2^23` when bits are
dropped; the result encodes `q` or `q + 1`, whichever is nearer (the even one
on a tie). -/
theorem roundBits_parts (N d : Nat) (hd : 0 < d) :
    ∃ shift q r, N = q * (d * 2 ^ shift) + r ∧ r < d * 2 ^ shift ∧ q < 2 ^ 24 ∧
      (shift = 0 ∨ 2 ^ 23 ≤ q) ∧
      roundBits N d = shift * 2 ^ 23 +
        (if d * 2 ^ shift < 2 * r ∨ (2 * r = d * 2 ^ shift ∧ q % 2 = 1) then q + 1 else q) := by
  let shift := if N / d < 2 ^ 24 then 0 else bitLength (N / d) - 24
  have hD : 0 < d * 2 ^ shift := Nat.mul_pos hd (Nat.pow_pos (by decide))
  refine ⟨shift, N / (d * 2 ^ shift), N % (d * 2 ^ shift), ?_, Nat.mod_lt _ hD, ?_, ?_, rfl⟩
  · rw [mul_comm]; exact (Nat.div_add_mod N _).symm
  · rw [← Nat.div_div_eq_div_mul]
    by_cases h : N / d < 2 ^ 24
    · have hs : shift = 0 := if_pos h
      rw [hs, pow_zero, Nat.div_one]; exact h
    · have hs : shift = bitLength (N / d) - 24 := if_neg h
      have hpos : 0 < N / d := by
        have : 0 < 2 ^ 24 := by norm_num
        omega
      obtain ⟨_, hb⟩ := bitLength_spec (N / d) hpos
      have hL : 24 < bitLength (N / d) := by
        by_contra hc
        have : 2 ^ bitLength (N / d) ≤ 2 ^ 24 := Nat.pow_le_pow_right (by decide) (by omega)
        omega
      rw [Nat.div_lt_iff_lt_mul (Nat.pow_pos (by decide)), ← pow_add, hs]
      rw [show 24 + (bitLength (N / d) - 24) = bitLength (N / d) by omega]
      exact hb
  · by_cases h : N / d < 2 ^ 24
    · exact Or.inl (if_pos h)
    · right
      have hs : shift = bitLength (N / d) - 24 := if_neg h
      have hpos : 0 < N / d := by
        have : 0 < 2 ^ 24 := by norm_num
        omega
      obtain ⟨ha, hb⟩ := bitLength_spec (N / d) hpos
      have hL : 24 < bitLength (N / d) := by
        by_contra hc
        have : 2 ^ bitLength (N / d) ≤ 2 ^ 24 := Nat.pow_le_pow_right (by decide) (by omega)
        omega
      rw [← Nat.div_div_eq_div_mul, Nat.le_div_iff_mul_le (Nat.pow_pos (by decide)), ← pow_add, hs]
      rw [show 23 + (bitLength (N / d) - 24) = bitLength (N / d) - 1 by omega]
      exact ha

/-- The magnitude encoded by `shift * 2^23 + q` is `q * 2^shift`, for a
mantissa `q` up to `2^24` that is at least `2^23` unless `shift` is 0. -/
theorem magUnits_encode (q shift : Nat) (hq : q ≤ 2 ^ 24) (hs : shift = 0 ∨ 2 ^ 23 ≤ q) :
    magUnits (shift * 2 ^ 23 + q) = q * 2 ^ shift := by
  by_cases h24 : q = 2 ^ 24
  · subst h24
    have e : shift * 2 ^ 23 + 2 ^ 24 = (shift + 2) * 2 ^ 23 := by ring
    unfold magUnits
    rw [e, Nat.mul_div_cancel _ (by norm_num), Nat.mul_mod_left]
    rw [if_neg (by omega), Nat.add_zero, show shift + 2 - 1 = shift + 1 by omega, pow_succ]
    ring
  · have hlt : q < 2 ^ 24 := lt_of_le_of_ne hq h24
    by_cases h23 : 2 ^ 23 ≤ q
    · have e : shift * 2 ^ 23 + q = (q - 2 ^ 23) + 2 ^ 23 * (shift + 1) := by
        have : shift * 2 ^ 23 + 2 ^ 23 = 2 ^ 23 * (shift + 1) := by ring
        omega
      unfold magUnits
      have hf : q - 2 ^ 23 < 2 ^ 23 := by omega
      rw [e, Nat.add_mul_div_left _ _ (by norm_num), Nat.add_mul_mod_self_left,
        Nat.div_eq_of_lt hf, Nat.mod_eq_of_lt hf]
      rw [if_neg (by omega), show 0 + (shift + 1) - 1 = shift by omega,
        show 2 ^ 23 + (q - 2 ^ 23) = q by omega]
    · have hs0 : shift = 0 := by
        rcases hs with h | h
        · exact h
        · exact absurd h h23
      subst hs0
      have hf : q < 2 ^ 23 := by omega
      unfold magUnits
      rw [zero_mul, zero_add, Nat.div_eq_of_lt hf, Nat.mod_eq_of_lt hf]
      simp

theorem magUnits_lt (m : Nat) : magUnits m < 2 ^ 23 * 2 ^ (m / 2 ^ 23) := by
  have hf : m % 2 ^ 23 < 2 ^ 23 := Nat.mod_lt _ (by norm_num)
  unfold magUnits
  split
  · next he => rw [he]; simpa using hf
  · next he =>
    obtain ⟨k, hk⟩ : ∃ k, m / 2 ^ 23 = k + 1 := ⟨m / 2 ^ 23 - 1, by omega⟩
    have hp : 0 < 2 ^ k := Nat.pow_pos (by decide)
    rw [hk, Nat.add_sub_cancel]
    calc (2 ^ 23 + m % 2 ^ 23) * 2 ^ k
        < (2 ^ 23 + 2 ^ 23) * 2 ^ k := Nat.mul_lt_mul_of_pos_right (by omega) hp
      _ = 2 ^ 23 * 2 ^ (k + 1) := by rw [pow_succ]; ring

theorem magUnits_ge (m : Nat) (he : m / 2 ^ 23 ≠ 0) :
    2 ^ 23 * 2 ^ (m / 2 ^ 23 - 1) ≤ magUnits m := by
  unfold magUnits
  rw [if_neg he]
  exact Nat.mul_le_mul_right _ (by omega)

/-- The encoding orders the magnitudes. -/
theorem magUnits_mono (m m' : Nat) (h : m ≤ m') : magUnits m ≤ magUnits m' := by
  have hdm := Nat.div_add_mod m (2 ^ 23)
  have hdm' := Nat.div_add_mod m' (2 ^ 23)
  have hf : m % 2 ^ 23 < 2 ^ 23 := Nat.mod_lt _ (by norm_num)
  have hf' : m' % 2 ^ 23 < 2 ^ 23 := Nat.mod_lt _ (by norm_num)
  have hdiv : m / 2 ^ 23 ≤ m' / 2 ^ 23 := Nat.div_le_div_right h
  rcases Nat.lt_or_ge (m / 2 ^ 23) (m' / 2 ^ 23) with hlt | hge
  · have h1 := magUnits_lt m
    have h2 := magUnits_ge m' (by omega)
    have h3 : 2 ^ 23 * 2 ^ (m / 2 ^ 23) ≤ 2 ^ 23 * 2 ^ (m' / 2 ^ 23 - 1) :=
      Nat.mul_le_mul_left _ (Nat.pow_le_pow_right (by decide) (by omega))
    omega
  · have he : m / 2 ^ 23 = m' / 2 ^ 23 := by omega
    have hff : m % 2 ^ 23 ≤ m' % 2 ^ 23 := by
      rw [he] at hdm; omega
    unfold magUnits
    rw [he]
    split
    · exact hff
    · exact Nat.mul_le_mul_right _ (by omega)

/-- Rounding is to nearest: no float32 magnitude (of any encoding `m`, taken in
units of `2^-149`) is nearer to the rational `N / d` than the magnitude that
`roundBits N d` encodes.  Distances are multiplied by `d`. -/
theorem roundBits_nearest (N d : Nat) (hd : 0 < d) (m : Nat) :
    Nat.dist (magUnits (roundBits N d) * d) N ≤ Nat.dist (magUnits m * d) N := by
  obtain ⟨shift, q, r, hN, hr, hq, hs, hres⟩ := roundBits_parts N d hd
  have hlo : magUnits (shift * 2 ^ 23 + q) = q * 2 ^ shift :=
    magUnits_encode q shift (by omega) hs
  have hhi : magUnits (shift * 2 ^ 23 + (q + 1)) = (q + 1) * 2 ^ shift :=
    magUnits_encode (q + 1) shift (by omega) (by rcases hs with h | h; exact Or.inl h; right; omega)
  have elo : q * 2 ^ shift * d = q * (d * 2 ^ shift) := by ring
  have ehi : (q + 1) * 2 ^ shift * d = q * (d * 2 ^ shift) + d * 2 ^ shift := by ring
  -- the distance of any magnitude is at least that of one of the two neighbours
  have hm : magUnits m * d ≤ q * (d * 2 ^ shift) ∨
      q * (d * 2 ^ shift) + d * 2 ^ shift ≤ magUnits m * d := by
    rcases Nat.lt_or_ge (shift * 2 ^ 23 + q) m with h | h
    · right
      have := magUnits_mono _ _ (show shift * 2 ^ 23 + (q + 1) ≤ m by omega)
      rw [hhi] at this
      rw [← ehi]
      exact Nat.mul_le_mul_right _ this
    · left
      have := magUnits_mono _ _ h
      rw [hlo] at this
      rw [← elo]
      exact Nat.mul_le_mul_right _ this
  rw [hres]
  generalize hX : magUnits m * d = X at hm ⊢
  generalize hD : d * 2 ^ shift = D at hN hr hm elo ehi ⊢
  generalize hQ : q * D = Q at hN hm elo ehi
  split
  · next hc =>
    rw [hhi, ehi]
    simp only [Nat.dist]
    rcases hc with hc | ⟨hc, _⟩ <;> rcases hm with hm | hm <;> omega
  · next hc =>
    rw [hlo, elo]
    simp only [Nat.dist]
    have : 2 * r ≤ D := by
      by_contra hcon
      exact hc (Or.inl (by omega))
    rcases hm with hm | hm <;> omega

/-! ## Values of the arithmetic -/

/-- The conversion `float32(n)` is exact for every `int8`. -/
theorem ofInt_exact_int8 (n : Int) (h1 : -128 ≤ n) (h2 : n ≤ 127) :
    isExactInt n (ofInt n) = true := by
  have key : ∀ i : Fin 256,
      isExactInt ((i.val : Int) - 128) (ofInt ((i.val : Int) - 128)) = true := by
    decide
  have h := key ⟨(n + 128).toNat, by omega⟩
  have e : (((n + 128).toNat : Nat) : Int) - 128 = n := by omega
  simp only [e] at h
  exact h

/-- Some values of the float32 arithmetic, of the parser and of the rendering:
sums that round (ties to even), `0.1 + 0.2 = 0.3` and `1/3` in float32, and the
renderings of `1/3`, of a million and of the two zeros. -/
theorem float32_rounding_examples :
    (ofInt 16777216).add (ofInt 1) = ofInt 16777216 ∧
    (ofInt 16777216).add (ofInt 3) = ofInt 16777220 ∧
    parseLiteral "0.1" = .ok ((ofInt 1).div (ofInt 10)) ∧
    ((ofInt 1).div (ofInt 10)).add ((ofInt 2).div (ofInt 10)) = (ofInt 3).div (ofInt 10) ∧
    (ofInt 1).div (ofInt 3) = F32.fin false ⟨1051372203, by decide⟩ ∧
    String.mk (formatFloat32 ((ofInt 1).div (ofInt 3))) = "0.33333334" ∧
    String.mk (formatFloat32 (ofInt 1000000)) = "1e+06" ∧
    String.mk (formatFloat32 F32.posZero) = "0" ∧
    String.mk (formatFloat32 F32.negZero) = "-0" := by
  refine ⟨by decide, by decide, by decide, by decide, by decide, by decide, by decide,
    by decide, by decide⟩

theorem ofInt_zero : ofInt 0 = F32.posZero := by decide

theorem ofInt_one : ofInt 1 = F32.fin false ⟨1065353216, by decide⟩ := by decide

theorem magUnits_one : magUnits 1065353216 = 2 ^ 149 := by decide

/-- Adding `+0` on the right changes nothing, except that `-0 + +0` is `+0`. -/
theorem F32.add_posZero (x : F32) (hx : x ≠ F32.negZero) : x.add F32.posZero = x := by
  cases x with
  | nan => rfl
  | inf a => rfl
  | fin a m =>
    have h0 : magUnits (0 : Nat) = 0 := by decide
    cases a with
    | false =>
      simp only [F32.add, F32.posZero, h0, Nat.add_zero, if_true]
      exact roundUnits_magUnits false m
    | true =>
      have hm : m.val ≠ 0 := by
        intro h
        apply hx
        simp only [F32.negZero]
        congr 1
        exact Fin.ext h
      have hk : magUnits m.val ≠ 0 := fun h => hm ((magUnits_eq_zero_iff _).mp h)
      simp only [F32.add, F32.posZero, h0, Nat.sub_zero]
      rw [if_neg (by decide), if_neg hk, if_pos (Nat.pos_of_ne_zero hk)]
      exact roundUnits_magUnits true m

theorem F32.negZero_add_posZero : F32.negZero.add F32.posZero = F32.posZero := by decide

/-- Adding to `+0` changes nothing, except that `+0 + -0` is `+0`. -/
theorem F32.posZero_add (x : F32) (hx : x ≠ F32.negZero) : F32.posZero.add x = x := by
  cases x with
  | nan => rfl
  | inf a => rfl
  | fin a m =>
    have h0 : magUnits (0 : Nat) = 0 := by decide
    cases a with
    | false =>
      simp only [F32.add, F32.posZero, h0, Nat.zero_add, if_true]
      exact roundUnits_magUnits false m
    | true =>
      have hm : m.val ≠ 0 := by
        intro h
        apply hx
        simp only [F32.negZero]
        congr 1
        exact Fin.ext h
      have hk : magUnits m.val ≠ 0 := fun h => hm ((magUnits_eq_zero_iff _).mp h)
      simp only [F32.add, F32.posZero, h0, Nat.sub_zero]
      rw [if_neg (by decide), if_neg (fun h => hk h.symm), if_neg (by omega)]
      exact roundUnits_magUnits true m

theorem F32.posZero_add_negZero : F32.posZero.add F32.negZero = F32.posZero := by decide

/-- Dividing by `float32(1)` changes nothing. -/
theorem F32.div_one (x : F32) : x.div (ofInt 1) = x := by
  rw [ofInt_one]
  cases x with
  | nan => rfl
  | inf a => cases a <;> rfl
  | fin a m =>
    simp only [F32.div, magUnits_one]
    rw [if_neg (by positivity)]
    have h := roundUnits_scale (xor a false) (magUnits m.val) 1 (2 ^ 149) (by positivity)
    rw [one_mul] at h
    rw [h, Bool.xor_false]
    exact roundUnits_magUnits a m

/-- A float32 sum is `-0` only when both terms are `-0`. -/
theorem F32.add_eq_negZero (x y : F32) (h : x.add y = F32.negZero) :
    x = F32.negZero ∧ y = F32.negZero := by
  have key : ∀ (neg : Bool) (N : Nat), roundUnits neg N 1 = F32.negZero → neg = true ∧ N = 0 := by
    intro neg N hr
    unfold roundUnits at hr
    split at hr
    · simp only [F32.negZero, F32.fin.injEq] at hr
      exact ⟨hr.1, roundBits_one_eq_zero N (by simpa using congrArg Fin.val hr.2)⟩
    · simp [F32.negZero] at hr
  cases x with
  | nan => simp [F32.add, F32.negZero] at h
  | inf a =>
    cases y with
    | nan => simp [F32.add, F32.negZero] at h
    | inf b => simp only [F32.add] at h; split at h <;> simp [F32.negZero] at h
    | fin b m => simp [F32.add, F32.negZero] at h
  | fin a m =>
    cases y with
    | nan => simp [F32.add, F32.negZero] at h
    | inf b => simp [F32.add, F32.negZero] at h
    | fin b k =>
      simp only [F32.add] at h
      split at h
      · next hab =>
        obtain ⟨ha, hN⟩ := key _ _ h
        have hm : m.val = 0 := (magUnits_eq_zero_iff _).mp (by omega)
        have hk : k.val = 0 := (magUnits_eq_zero_iff _).mp (by omega)
        subst hab; subst ha
        constructor
        · simp only [F32.negZero]; congr 1; exact Fin.ext hm
        · simp only [F32.negZero]; congr 1; exact Fin.ext hk
      · split at h
        · simp [F32.posZero, F32.negZero] at h
        · split at h
          · obtain ⟨_, hN⟩ := key _ _ h; omega
          · obtain ⟨_, hN⟩ := key _ _ h; omega

theorem sumLoop_eq_foldl (s : List F32) (acc : F32) : sumLoop s acc = s.foldl F32.add acc := by
  induction s generalizing acc with
  | nil => rfl
  | cons x xs ih => simp [sumLoop, ih]

theorem sumLoop_ne_negZero (s : List F32) (acc : F32) (h : acc ≠ F32.negZero) :
    sumLoop s acc ≠ F32.negZero := by
  induction s generalizing acc with
  | nil => exact h
  | cons x xs ih =>
    rw [sumLoop]
    exact ih _ (fun hc => h (F32.add_eq_negZero _ _ hc).1)


/-! ## The rendering of a float32 has no line break -/

theorem digitChar_ne_newline (d : Nat) : digitChar d ≠ '\n' := by
  unfold digitChar
  split <;> decide

theorem decDigitsAux_noNewline (fuel : Nat) :
    ∀ n acc, (∀ c ∈ acc, c ≠ '\n') → ∀ c ∈ decDigitsAux fuel n acc, c ≠ '\n' := by
  induction fuel with
  | zero => intro n acc h; simpa [decDigitsAux] using h
  | succ fuel ih =>
    intro n acc h
    rw [decDigitsAux]
    split
    · intro c hc
      rcases List.mem_cons.mp hc with rfl | hc
      · exact digitChar_ne_newline n
      · exact h c hc
    · apply ih
      intro c hc
      rcases List.mem_cons.mp hc with rfl | hc
      · exact digitChar_ne_newline _
      · exact h c hc

theorem decDigits_noNewline (n : Nat) : ∀ c ∈ decDigits n, c ≠ '\n' :=
  decDigitsAux_noNewline _ _ _ (by simp)

theorem stripZeros_subset (ds : List Char) : ∀ c ∈ stripZeros ds, c ∈ ds := by
  intro c hc
  unfold stripZeros at hc
  rw [List.mem_reverse] at hc
  have := (List.dropWhile_suffix (fun c => c == '0') (l := ds.reverse)).subset hc
  exact List.mem_reverse.mp this

theorem noNewline_append (a b : List Char) (ha : ∀ c ∈ a, c ≠ '\n')
    (hb : ∀ c ∈ b, c ≠ '\n') : ∀ c ∈ a ++ b, c ≠ '\n' := by
  intro c hc
  rcases List.mem_append.mp hc with h | h
  · exact ha c h
  · exact hb c h

theorem noNewline_cons (a : Char) (b : List Char) (ha : a ≠ '\n')
    (hb : ∀ c ∈ b, c ≠ '\n') : ∀ c ∈ a :: b, c ≠ '\n' := by
  intro c hc
  rcases List.mem_cons.mp hc with h | h
  · rw [h]; exact ha
  · exact hb c h

theorem noNewline_nil : ∀ c ∈ ([] : List Char), c ≠ '\n' := by simp

theorem fmtE_noNewline (neg : Bool) (ds : List Char) (dp : Int)
    (h : ∀ c ∈ ds, c ≠ '\n') : ∀ c ∈ fmtE neg ds dp, c ≠ '\n' := by
  unfold fmtE
  simp only []
  generalize (if ds.length = 0 then (0 : Int) else dp - 1) = exp
  refine noNewline_append _ _ (noNewline_append _ _ (noNewline_append _ _
    (noNewline_append _ _ ?_ ?_) ?_) ?_) ?_
  · split
    · exact noNewline_cons _ _ (by decide) noNewline_nil
    · exact noNewline_nil
  · split
    · exact noNewline_cons _ _ (by decide) noNewline_nil
    · exact noNewline_cons _ _ (h _ (by simp)) noNewline_nil
  · split
    · exact noNewline_cons _ _ (by decide) (fun c hc => h c (List.mem_of_mem_drop hc))
    · exact noNewline_nil
  · refine noNewline_cons _ _ (by decide) (noNewline_cons _ _ ?_ noNewline_nil)
    split <;> decide
  · split
    · exact noNewline_cons _ _ (by decide)
        (noNewline_cons _ _ (digitChar_ne_newline _) noNewline_nil)
    · split
      · exact noNewline_cons _ _ (digitChar_ne_newline _)
          (noNewline_cons _ _ (digitChar_ne_newline _) noNewline_nil)
      · exact noNewline_cons _ _ (digitChar_ne_newline _)
          (noNewline_cons _ _ (digitChar_ne_newline _)
            (noNewline_cons _ _ (digitChar_ne_newline _) noNewline_nil))

theorem fmtF_noNewline (neg : Bool) (ds : List Char) (dp : Int)
    (h : ∀ c ∈ ds, c ≠ '\n') : ∀ c ∈ fmtF neg ds dp, c ≠ '\n' := by
  unfold fmtF
  simp only []
  refine noNewline_append _ _ (noNewline_append _ _ ?_ ?_) ?_
  · split
    · exact noNewline_cons _ _ (by decide) noNewline_nil
    · exact noNewline_nil
  · split
    · refine noNewline_append _ _ (fun c hc => h c (List.mem_of_mem_take hc)) ?_
      intro c hc
      rw [(List.mem_replicate.mp hc).2]; decide
    · exact noNewline_cons _ _ (by decide) noNewline_nil
  · split
    · refine noNewline_cons _ _ (by decide) ?_
      intro c hc
      obtain ⟨i, _, rfl⟩ := List.mem_map.mp hc
      split
      · next hj =>
        rw [List.getD_eq_getElem _ _ (by omega)]
        exact h _ (List.getElem_mem _)
      · decide
    · exact noNewline_nil

theorem formatFloat32_noNewline (x : F32) : ∀ c ∈ formatFloat32 x, c ≠ '\n' := by
  cases x with
  | nan => decide
  | inf neg => cases neg <;> decide
  | fin neg m =>
    simp only [formatFloat32]
    split
    · exact fmtF_noNewline _ _ _ noNewline_nil
    · split
      · exact fmtE_noNewline _ _ _
          (fun c hc => decDigits_noNewline _ c (stripZeros_subset _ c hc))
      · exact fmtF_noNewline _ _ _
          (fun c hc => decDigits_noNewline _ c (stripZeros_subset _ c hc))

/-! ## The parser on strings without underscore and without hexadecimal prefix -/

theorem splitOf_cons (x : F32) (xs : List F32) (n : Int) :
    splitOf (x :: xs) n = (sumSplits (x :: xs)).div (ofInt n) := by
  simp [splitOf, sumSplits, sumLoop_eq_foldl]

theorem splitOf_of_ne_nil (s : List F32) (n : Int) (hs : s ≠ []) :
    splitOf s n = (sumSplits s).div (ofInt n) := by
  cases s with
  | nil => exact absurd rfl hs
  | cons x xs => exact splitOf_cons x xs n

theorem resultOf_eq_specResult (p : F32) (s : List F32) (n : Int) :
    resultOf p s n = specResult (some p) s n := by
  cases s with
  | nil => rfl
  | cons x xs => simp [resultOf, specResult, splitOf_cons]

theorem resultOf_posZero_eq_specResult (s : List F32) (n : Int) :
    resultOf F32.posZero s n = specResult none s n := resultOf_eq_specResult _ s n

theorem validateBillArgs_cons (a : String) (rest : List String) (s : List F32) :
    validateBillArgs (a :: rest) s = .ok () := by
  simp [validateBillArgs]

theorem validateBillArgs_of_splits (args : List String) (s : List F32) (hs : s ≠ []) :
    validateBillArgs args s = .ok () := by
  cases s with
  | nil => exact absurd rfl hs
  | cons x xs => simp [validateBillArgs]

theorem parseFloat_of_short (long : String → Except NumError F32) (a : String)
    (h : a.length ≤ 800) : parseFloat long a = parseLiteral a := by
  rw [parseFloat]; exact if_pos h

theorem Execute_cons (long : String → Except NumError F32) (a : String) (rest : List String)
    (s : List F32) (n : Int) :
    Execute long (a :: rest) s n = BillImpl long (a :: rest) s n := by
  simp [Execute, validateBillArgs_cons]

theorem Execute_of_splits (long : String → Except NumError F32) (args : List String)
    (s : List F32) (n : Int) (hs : s ≠ []) :
    Execute long args s n = BillImpl long args s n := by
  simp [Execute, validateBillArgs_of_splits args s hs]

theorem BillImpl_of_ok (long : String → Except NumError F32) (args : List String)
    (s : List F32) (n : Int) (p : F32) (hp : principleOf long args = .ok p) :
    BillImpl long args s n = .printed (Println billLabel (resultOf p s n)) := by
  simp [BillImpl, hp]

theorem BillImpl_of_error (long : String → Except NumError F32) (args : List String)
    (s : List F32) (n : Int) (err : NumError) (hp : principleOf long args = .error err) :
    BillImpl long args s n = .fatal err := by
  simp [BillImpl, hp]

/-- The run with a first positional argument of at most 800 bytes that
`parseLiteral` accepts. -/
theorem Execute_of_literal (long : String → Except NumError F32) (a : String)
    (rest : List String) (s : List F32) (n : Int) (p : F32) (hl : a.length ≤ 800)
    (hp : parseLiteral a = .ok p) :
    Execute long (a :: rest) s n = .printed (Println billLabel (resultOf p s n)) := by
  rw [Execute_cons, BillImpl_of_ok long (a :: rest) s n p]
  rw [principleOf, parseFloat_of_short long a hl, hp]

/-- The run without positional argument and with splits. -/
theorem Execute_nil (long : String → Except NumError F32) (s : List F32) (n : Int)
    (hs : s ≠ []) :
    Execute long [] s n = .printed (Println billLabel (resultOf F32.posZero s n)) := by
  rw [Execute_of_splits long [] s n hs, BillImpl_of_ok long [] s n F32.posZero rfl]

theorem sumSplits_ne_negZero (s : List F32) : sumSplits s ≠ F32.negZero := by
  rw [sumSplits, ← sumLoop_eq_foldl]
  exact sumLoop_ne_negZero s _ (by decide)

theorem F32.posZero_add_numEq (x : F32) : (F32.posZero.add x).numEq x := by
  by_cases hx : x = F32.negZero
  · subst hx; exact Or.inr ⟨by decide, by decide⟩
  · rw [F32.posZero_add x hx]; exact Or.inl rfl

theorem F32.add_posZero_numEq (x : F32) : (x.add F32.posZero).numEq x := by
  by_cases hx : x = F32.negZero
  · subst hx; exact Or.inr ⟨by decide, by decide⟩
  · rw [F32.add_posZero x hx]; exact Or.inl rfl

/-- Division of a float32 by `+0`: NaN for a zero or NaN dividend, and the
infinity of the dividend's sign otherwise. -/
theorem F32.div_posZero (x : F32) :
    (x.isZero = true → x.div F32.posZero = .nan) ∧
    (x = .nan → x.div F32.posZero = .nan) ∧
    (x ≠ .nan → x.isZero = false → x.div F32.posZero = .inf x.signBit) := by
  have h0 : magUnits (0 : Nat) = 0 := by decide
  cases x with
  | nan => simp [F32.div, F32.isZero]
  | inf a => simp [F32.div, F32.isZero, F32.posZero, F32.signBit]
  | fin a m =>
    refine ⟨?_, ?_, ?_⟩
    · intro hz
      have hm : m.val = 0 := by simpa [F32.isZero] using hz
      simp [F32.div, F32.posZero, h0, (magUnits_eq_zero_iff _).mpr hm]
    · intro h; cases h
    · intro _ hz
      have hm : m.val ≠ 0 := by simpa [F32.isZero] using hz
      have hk : magUnits m.val ≠ 0 := fun h => hm ((magUnits_eq_zero_iff _).mp h)
      simp [F32.div, F32.posZero, h0, hk, F32.signBit]

/-- Adding an infinity or NaN to a finite float32 gives that infinity or NaN. -/
theorem F32.finite_add_nonfinite (p x : F32) (hp : p.isFinite = true)
    (hx : x.isFinite = false) : p.add x = x := by
  cases p with
  | nan => simp [F32.isFinite] at hp
  | inf a => simp [F32.isFinite] at hp
  | fin a m =>
    cases x with
    | nan => rfl
    | inf b => rfl
    | fin b k => simp [F32.isFinite] at hx

/-! ## Properties of the specification -/

/-- C1: `validateBillArgs` returns an error if and only if there is no
positional argument and no split; in every other case it returns `nil`.  When
it fails, `Execute` ends with the validator's error and exit status 1:
`BillImpl` is not run, so the run neither prints a result nor reaches the fatal
parse error, and standard output holds the error message only. -/
theorem validateBillArgs_error_iff (long : String → Except NumError F32) (args : List String)
    (s : List F32) (n : Int) :
    ((∃ err, validateBillArgs args s = .error err) ↔ (args = [] ∧ s = [])) ∧
    (¬ (args = [] ∧ s = []) → validateBillArgs args s = .ok ()) ∧
    ((args = [] ∧ s = []) →
      validateBillArgs args s = .error validateBillArgsMessage ∧
      Execute long args s n = .invalidArgs validateBillArgsMessage ∧
      (∀ out, Execute long args s n ≠ .printed out) ∧
      (∀ err, Execute long args s n ≠ .fatal err) ∧
      (Execute long args s n).stdout = validateBillArgsMessage ++ "\n" ∧
      (Execute long args s n).exitCode = 1) := by
  have hiff : (args.length = 0 ∧ s.length = 0) ↔ (args = [] ∧ s = []) := by
    simp [List.length_eq_zero]
  refine ⟨?_, ?_, ?_⟩
  · constructor
    · rintro ⟨err, h⟩
      by_contra hne
      rw [validateBillArgs, if_neg (fun hc => hne (hiff.mp hc))] at h
      cases h
    · intro h
      exact ⟨validateBillArgsMessage, by rw [validateBillArgs, if_pos (hiff.mpr h)]⟩
  · intro h
    rw [validateBillArgs, if_neg (fun hc => h (hiff.mp hc))]
  · rintro ⟨rfl, rfl⟩
    refine ⟨rfl, rfl, ?_, ?_, rfl, rfl⟩
    · intro out h; cases h
    · intro err h; cases h

/-- Witness of C1: no positional argument and no splits. -/
theorem validateBillArgs_error_iff_witness :
    validateBillArgs [] [] = .error validateBillArgsMessage ∧
    ∀ long, Execute long [] [] 1 = .invalidArgs validateBillArgsMessage :=
  ⟨((validateBillArgs_error_iff (fun _ => .error .errSyntax) [] [] 1).2.2 ⟨rfl, rfl⟩).1,
    fun long => ((validateBillArgs_error_iff long [] [] 1).2.2 ⟨rfl, rfl⟩).2.1⟩

/-- C2: for an invocation that passes validation and whose principal, if given,
parses, the line `BillImpl` prints is the rendering of
`principal + (sum(splits) / numPeople)` in float32 arithmetic (`specResult`),
where the principal is 0 when no positional argument was given and the whole
split term is 0 when there are no splits.  The first part is the run without a
positional argument (validation then requires a split), the second the run
whose first positional argument parses to `p`. -/
theorem BillImpl_prints_specResult (long : String → Except NumError F32) (s : List F32)
    (n : Int) :
    (s ≠ [] → validateBillArgs [] s = .ok () ∧
      Execute long [] s n = .printed (Println billLabel (specResult none s n))) ∧
    (∀ (a : String) (rest : List String) (p : F32), parseFloat long a = .ok p →
      validateBillArgs (a :: rest) s = .ok () ∧
      Execute long (a :: rest) s n =
        .printed (Println billLabel (specResult (some p) s n))) ∧
    (∀ p : F32, specResult (some p) [] n = p.add F32.posZero) ∧
    specResult none s n = specResult (some F32.posZero) s n := by
  refine ⟨?_, ?_, ?_, ?_⟩
  · intro hs
    refine ⟨validateBillArgs_of_splits [] s hs, ?_⟩
    rw [Execute_nil long s n hs, resultOf_posZero_eq_specResult]
  · intro a rest p hp
    refine ⟨validateBillArgs_cons a rest s, ?_⟩
    rw [Execute_cons, BillImpl_of_ok long (a :: rest) s n p hp, resultOf_eq_specResult]
  · intro p; rfl
  · rfl

/-- Witness of C2: the principal `"50"` with the splits 10, 10 and numPeople 2. -/
theorem BillImpl_prints_specResult_witness :
    specResult (some (ofInt 50)) [ofInt 10, ofInt 10] 2 = ofInt 60 ∧
    ∀ long, parseFloat long "50" = .ok (ofInt 50) ∧
      Execute long ["50"] [ofInt 10, ofInt 10] 2 =
        .printed (Println billLabel (specResult (some (ofInt 50)) [ofInt 10, ofInt 10] 2)) :=
  ⟨by decide, fun long =>
    have h : parseFloat long "50" = .ok (ofInt 50) := by
      rw [parseFloat_of_short long "50" (by decide)]; decide
    ⟨h, ((BillImpl_prints_specResult long [ofInt 10, ofInt 10] 2).2.1 "50" [] (ofInt 50) h).2⟩⟩

/-- C3: with a principal that parses to `p` and no splits, for every value of
numPeople (zero and negative values included) the division is not performed
(`split` stays 0) and the result `BillImpl` computes and prints equals the
principal: it is the same number (`numEq`), and the very same float32 unless the
principal is the negative zero, for which `-0 + 0` is `+0`. -/
theorem result_eq_principal_of_no_splits (long : String → Except NumError F32) (a : String)
    (rest : List String) (n : Int) (p : F32) (hp : parseFloat long a = .ok p) :
    splitOf [] n = F32.posZero ∧
    (resultOf p [] n).numEq p ∧
    (p ≠ F32.negZero → resultOf p [] n = p) ∧
    (p = F32.negZero → resultOf p [] n = F32.posZero) ∧
    Execute long (a :: rest) [] n = .printed (Println billLabel (resultOf p [] n)) ∧
    (p ≠ F32.negZero → Execute long (a :: rest) [] n = .printed (Println billLabel p)) := by
  have hres : resultOf p [] n = p.add F32.posZero := rfl
  have hex : Execute long (a :: rest) [] n =
      .printed (Println billLabel (resultOf p [] n)) := by
    rw [Execute_cons, BillImpl_of_ok long (a :: rest) [] n p hp]
  refine ⟨rfl, ?_, ?_, ?_, hex, ?_⟩
  · rw [hres]; exact F32.add_posZero_numEq p
  · intro hne; rw [hres, F32.add_posZero p hne]
  · intro he; rw [hres, he]; exact F32.negZero_add_posZero
  · intro hne; rw [hex, hres, F32.add_posZero p hne]

/-- Witness of C3: the principal `"100"` with no splits and numPeople 0. -/
theorem result_eq_principal_of_no_splits_witness :
    parseLiteral "100" = .ok (ofInt 100) ∧
    ∀ long, Execute long ["100"] [] 0 = .printed (Println billLabel (ofInt 100)) :=
  ⟨by decide, fun long =>
    (result_eq_principal_of_no_splits long "100" [] 0 (ofInt 100)
      (by rw [parseFloat_of_short long "100" (by decide)]; decide)).2.2.2.2.2 (by decide)⟩

/-- C4: with no positional argument and a non-empty list of splits, the result
`BillImpl` computes and prints equals `sum(splits) / numPeople`: it is the same
number (`numEq`), and the very same float32 unless the quotient is the negative
zero (`0 + -0` is `+0`).  With numPeople 1, the default of the flag, the result
is `sum(splits)`.  The splits 10, 10, 10 with numPeople 3 give 10. -/
theorem result_eq_split_of_no_principal (long : String → Except NumError F32) (s : List F32)
    (n : Int) (hs : s ≠ []) :
    principleOf long [] = .ok F32.posZero ∧
    Execute long [] s n = .printed (Println billLabel (resultOf F32.posZero s n)) ∧
    (resultOf F32.posZero s n).numEq ((sumSplits s).div (ofInt n)) ∧
    ((sumSplits s).div (ofInt n) ≠ F32.negZero →
      resultOf F32.posZero s n = (sumSplits s).div (ofInt n)) ∧
    ((sumSplits s).div (ofInt n) = F32.negZero → resultOf F32.posZero s n = F32.posZero) ∧
    resultOf F32.posZero s defaultNumPeople = sumSplits s ∧
    Execute long [] s defaultNumPeople = .printed (Println billLabel (sumSplits s)) ∧
    resultOf F32.posZero [ofInt 10, ofInt 10, ofInt 10] 3 = ofInt 10 ∧
    Execute long [] [ofInt 10, ofInt 10, ofInt 10] 3 =
      .printed "The amount to pay is:  10\n" := by
  have hex : ∀ k : Int,
      Execute long [] s k = .printed (Println billLabel (resultOf F32.posZero s k)) :=
    fun k => Execute_nil long s k hs
  have hres : ∀ k : Int,
      resultOf F32.posZero s k = F32.posZero.add ((sumSplits s).div (ofInt k)) := by
    intro k
    rw [resultOf, splitOf_of_ne_nil s k hs]
  have hone : resultOf F32.posZero s defaultNumPeople = sumSplits s := by
    rw [hres, defaultNumPeople, F32.div_one, F32.posZero_add _ (sumSplits_ne_negZero s)]
  refine ⟨rfl, hex n, ?_, ?_, ?_, hone, ?_, by decide, ?_⟩
  · rw [hres]; exact F32.posZero_add_numEq _
  · intro hne; rw [hres, F32.posZero_add _ hne]
  · intro he; rw [hres, he]; exact F32.posZero_add_negZero
  · rw [hex, hone]
  · rw [Execute_nil long _ 3 (by decide)]; decide

/-- Witness of C4: the splits 1, 2 with numPeople 2. -/
theorem result_eq_split_of_no_principal_witness :
    resultOf F32.posZero [ofInt 1, ofInt 2] 2 = (ofInt 3).div (ofInt 2) ∧
    ∀ long, Execute long [] [ofInt 1, ofInt 2] 2 =
      .printed (Println billLabel (resultOf F32.posZero [ofInt 1, ofInt 2] 2)) :=
  ⟨by decide, fun long =>
    (result_eq_split_of_no_principal long [ofInt 1, ofInt 2] 2 (by decide)).2.1⟩

/-- C5: a successful run of `BillImpl` (the principal is absent or parses)
writes exactly one line to standard output: the label `"The amount to pay is: "`,
one separating space, the rendering of the result, and the line end; neither
the label nor the rendering contains a line end.  The principal `"50"` with
splits 10, 10 and numPeople 2 prints `The amount to pay is:  60`, the principal
`"100"` with no splits prints `The amount to pay is:  100`. -/
theorem BillImpl_output_line (long : String → Except NumError F32) (args : List String)
    (s : List F32) (n : Int) (principle : F32) (hp : principleOf long args = .ok principle) :
    BillImpl long args s n = .printed
      ("The amount to pay is: " ++ " " ++ String.mk (formatFloat32 (resultOf principle s n))
        ++ "\n") ∧
    (∀ c ∈ "The amount to pay is: ".data, c ≠ '\n') ∧
    (∀ c ∈ formatFloat32 (resultOf principle s n), c ≠ '\n') ∧
    (BillImpl long args s n).exitCode = 0 ∧
    parseFloat long "10" = .ok (ofInt 10) ∧
    BillImpl long ["50"] [ofInt 10, ofInt 10] 2 = .printed "The amount to pay is:  60\n" ∧
    Execute long ["50"] [ofInt 10, ofInt 10] 2 = .printed "The amount to pay is:  60\n" ∧
    BillImpl long ["100"] [] 1 = .printed "The amount to pay is:  100\n" ∧
    Execute long ["100"] [] 1 = .printed "The amount to pay is:  100\n" := by
  have h := BillImpl_of_ok long args s n principle hp
  have e50 : Execute long ["50"] [ofInt 10, ofInt 10] 2 =
      .printed "The amount to pay is:  60\n" := by
    rw [Execute_of_literal long "50" [] _ 2 (ofInt 50) (by decide) (by decide)]; decide
  have e100 : Execute long ["100"] [] 1 = .printed "The amount to pay is:  100\n" := by
    rw [Execute_of_literal long "100" [] _ 1 (ofInt 100) (by decide) (by decide)]; decide
  refine ⟨?_, by decide, formatFloat32_noNewline _, ?_, ?_, ?_, e50, ?_, e100⟩
  · rw [h]; rfl
  · rw [h]; rfl
  · rw [parseFloat_of_short long "10" (by decide)]; decide
  · rw [← Execute_cons]; exact e50
  · rw [← Execute_cons]; exact e100

/-- Witness of C5: the principal `"50"` with splits 10, 10 and numPeople 2. -/
theorem BillImpl_output_line_witness :
    parseLiteral "50" = .ok (ofInt 50) ∧
    ∀ long, BillImpl long ["50"] [ofInt 10, ofInt 10] 2 = .printed
      ("The amount to pay is: " ++ " " ++
        String.mk (formatFloat32 (resultOf (ofInt 50) [ofInt 10, ofInt 10] 2)) ++ "\n") :=
  ⟨by decide, fun long =>
    (BillImpl_output_line long ["50"] [ofInt 10, ofInt 10] 2 (ofInt 50)
      (by rw [principleOf, parseFloat_of_short long "50" (by decide)]; decide)).1⟩

/-- C6: when the first positional argument is malformed (`strconv.ParseFloat`
returns an error for it), then for every list of splits and every numPeople
`BillImpl` ends in the fatal error `log.Fatal(err)` with that parse error and
exit status 1, before any computation, and nothing is written to standard
output: no `The amount to pay is` line.  The same holds for the whole command. -/
theorem BillImpl_fatal_of_malformed (long : String → Except NumError F32) (a : String)
    (rest : List String) (s : List F32) (n : Int)
    (err : NumError) (hp : parseFloat long a = .error err) :
    BillImpl long (a :: rest) s n = .fatal err ∧
    Execute long (a :: rest) s n = .fatal err ∧
    (Execute long (a :: rest) s n).exitCode = 1 ∧
    (Execute long (a :: rest) s n).stdout = "" ∧
    (∀ out, Execute long (a :: rest) s n ≠ .printed out) := by
  have h : BillImpl long (a :: rest) s n = .fatal err :=
    BillImpl_of_error long (a :: rest) s n err hp
  have h2 : Execute long (a :: rest) s n = .fatal err := by rw [Execute_cons, h]
  refine ⟨h, h2, ?_, ?_, ?_⟩
  · rw [h2]; rfl
  · rw [h2]; rfl
  · intro out hc; rw [h2] at hc; cases hc

/-- Witness of C6: the principal `"abc"`. -/
theorem BillImpl_fatal_of_malformed_witness :
    parseLiteral "abc" = .error .errSyntax ∧
    ∀ long, Execute long ["abc"] [ofInt 10, ofInt 10] 2 = .fatal .errSyntax :=
  ⟨by decide, fun long =>
    (BillImpl_fatal_of_malformed long "abc" [] [ofInt 10, ofInt 10] 2 .errSyntax
      (by rw [parseFloat_of_short long "abc" (by decide)]; decide)).2.1⟩

/-- C8, as stated, fails.  With the principal `-Inf`, the split 10 and
numPeople 0 the sum of the splits is the non-zero number 10 and the split term
is `+Inf`, yet the printed result is NaN and not an infinity.  And the splits
`+Inf`, `-Inf` have the sum NaN, which is not zero, and the split term and the
printed result are NaN, not an infinity. -/
theorem zero_numPeople_counterexample :
    parseLiteral "-Inf" = .ok (.inf true) ∧
    sumSplits [ofInt 10] = ofInt 10 ∧
    (ofInt 10).isZero = false ∧
    splitOf [ofInt 10] 0 = .inf false ∧
    (∀ long, Execute long ["-Inf"] [ofInt 10] 0 = .printed "The amount to pay is:  NaN\n") ∧
    sumSplits [.inf false, .inf true] = .nan ∧
    splitOf [.inf false, .inf true] 0 = .nan ∧
    (∀ long, Execute long [] [.inf false, .inf true] 0 =
      .printed "The amount to pay is:  NaN\n") := by
  refine ⟨by decide, by decide, by decide, by decide, ?_, by decide, by decide, ?_⟩
  · intro long
    rw [Execute_of_literal long "-Inf" [] _ 0 (.inf true) (by decide) (by decide)]; decide
  · intro long
    rw [Execute_nil long _ 0 (by decide)]; decide

/-- C8, amended: with numPeople 0 and a non-empty list of splits, `BillImpl` does
not guard the division: the split term is the sum of the splits divided by the
float32 zero, which is the infinity of the sum's sign when the sum is a non-zero
number, and NaN when the sum is zero or NaN.  The division raises no error: a
principal that does not parse is fatal as for any numPeople, and when the
principal is absent or parses the run ends with exit status 0 and the line of
the result `principle + split`.  That result is the split term itself when the
principal is absent or finite, NaN when the principal is NaN, and for an
infinite principal that infinity when the split term is the same infinity and
NaN otherwise. -/
theorem split_term_of_zero_numPeople (long : String → Except NumError F32)
    (args : List String) (s : List F32) (hs : s ≠ []) :
    splitOf s 0 = (sumSplits s).div F32.posZero ∧
    ((sumSplits s).isZero = true → splitOf s 0 = .nan) ∧
    (sumSplits s = .nan → splitOf s 0 = .nan) ∧
    (sumSplits s ≠ .nan → (sumSplits s).isZero = false →
      splitOf s 0 = .inf (sumSplits s).signBit) ∧
    (splitOf s 0).isFinite = false ∧
    validateBillArgs args s = .ok () ∧
    (∀ err, principleOf long args = .error err → Execute long args s 0 = .fatal err) ∧
    (∀ p, principleOf long args = .ok p →
      Execute long args s 0 = .printed (Println billLabel (p.add (splitOf s 0))) ∧
      (Execute long args s 0).exitCode = 0 ∧
      (p.isFinite = true → p.add (splitOf s 0) = splitOf s 0) ∧
      (p = .nan → p.add (splitOf s 0) = .nan) ∧
      (∀ neg, p = .inf neg →
        p.add (splitOf s 0) = if splitOf s 0 = .inf neg then .inf neg else .nan)) ∧
    Execute long [] s 0 = .printed (Println billLabel (splitOf s 0)) := by
  have hsplit : splitOf s 0 = (sumSplits s).div F32.posZero := by
    rw [splitOf_of_ne_nil s 0 hs, ofInt_zero]
  have hdiv := F32.div_posZero (sumSplits s)
  have hnf : (splitOf s 0).isFinite = false := by
    rw [hsplit]
    by_cases hn : sumSplits s = .nan
    · rw [hdiv.2.1 hn]; rfl
    · cases hz : (sumSplits s).isZero with
      | true => rw [hdiv.1 hz]; rfl
      | false => rw [hdiv.2.2 hn hz]; rfl
  refine ⟨hsplit, ?_, ?_, ?_, hnf, validateBillArgs_of_splits args s hs, ?_, ?_, ?_⟩
  · intro hz; rw [hsplit]; exact hdiv.1 hz
  · intro hn; rw [hsplit]; exact hdiv.2.1 hn
  · intro hn hz; rw [hsplit]; exact hdiv.2.2 hn hz
  · intro err hp
    rw [Execute_of_splits long args s 0 hs, BillImpl_of_error long args s 0 err hp]
  · intro p hp
    have hex : Execute long args s 0 = .printed (Println billLabel (p.add (splitOf s 0))) := by
      rw [Execute_of_splits long args s 0 hs, BillImpl_of_ok long args s 0 p hp, resultOf]
    refine ⟨hex, ?_, ?_, ?_, ?_⟩
    · rw [hex]; rfl
    · intro hfin; exact F32.finite_add_nonfinite _ _ hfin hnf
    · intro hn; rw [hn]; simp [F32.add]
    · intro neg hn
      rw [hn]
      cases hx : splitOf s 0 with
      | nan => simp [F32.add]
      | inf b =>
        by_cases hb : neg = b
        · subst hb; simp [F32.add]
        · have hne : ¬ b = neg := fun h => hb h.symm
          simp [F32.add, hb, hne]
      | fin b m => rw [hx] at hnf; simp [F32.isFinite] at hnf
  · rw [Execute_nil long s 0 hs, resultOf]
    rw [F32.finite_add_nonfinite _ _ (by rfl) hnf]

/-- Witness of C8 amended: no principal, the splits 10, 10 and numPeople 0 print
`+Inf`; the split 0 prints `NaN`. -/
theorem split_term_of_zero_numPeople_witness :
    splitOf [ofInt 10, ofInt 10] 0 = .inf false ∧
    splitOf [ofInt 0] 0 = .nan ∧
    ∀ long, Execute long [] [ofInt 10, ofInt 10] 0 =
        .printed (Println billLabel (splitOf [ofInt 10, ofInt 10] 0)) :=
  ⟨by decide, by decide, fun long =>
    (split_term_of_zero_numPeople long [] [ofInt 10, ofInt 10] (by decide)).2.2.2.2.2.2.2.2⟩

/-- C9, as stated, fails: the positional argument `-5` passes validation, is
parsed to the negative principal -5 and the run prints the negative result. -/
theorem principal_nonneg_counterexample :
    validateBillArgs ["-5"] [] = .ok () ∧
    (ofInt (-5)).isNegative = true ∧
    ∀ long, principleOf long ["-5"] = .ok (ofInt (-5)) ∧
      Execute long ["-5"] [] 1 = .printed "The amount to pay is:  -5\n" := by
  refine ⟨by decide, by decide, fun long => ⟨?_, ?_⟩⟩
  · rw [principleOf, parseFloat_of_short long "-5" (by decide)]; decide
  · rw [Execute_of_literal long "-5" [] _ 1 (ofInt (-5)) (by decide) (by decide)]; decide

/-- C9, amended: for an invocation that passes validation and prints a result,
the principal used in the computation is 0 when no positional argument was
given and otherwise the value `strconv.ParseFloat` returns for the first
positional argument, whatever its sign: no check of the sign is made. -/
theorem principal_used (long : String → Except NumError F32) (args : List String)
    (s : List F32) (n : Int) (out : String)
    (hv : validateBillArgs args s = .ok ()) (ho : Execute long args s n = .printed out) :
    ∃ p, principleOf long args = .ok p ∧
      out = Println billLabel (resultOf p s n) ∧
      (args = [] → p = F32.posZero) ∧
      (∀ a rest, args = a :: rest → parseFloat long a = .ok p) := by
  have hE : Execute long args s n = BillImpl long args s n := by simp [Execute, hv]
  rw [hE] at ho
  cases hp : principleOf long args with
  | error err => rw [BillImpl_of_error long args s n err hp] at ho; cases ho
  | ok p =>
    rw [BillImpl_of_ok long args s n p hp] at ho
    refine ⟨p, rfl, ?_, ?_, ?_⟩
    · simp only [Outcome.printed.injEq] at ho; exact ho.symm
    · intro ha; subst ha
      simp only [principleOf, Except.ok.injEq] at hp
      exact hp.symm
    · intro a rest ha; subst ha
      exact hp

/-- Witness of C9 amended: the positional argument `-5`. -/
theorem principal_used_witness :
    parseLiteral "-5" = .ok (ofInt (-5)) ∧
    ∀ long, ∃ p, principleOf long ["-5"] = .ok p ∧
      "The amount to pay is:  -5\n" = Println billLabel (resultOf p [] 1) ∧
      (["-5"] = [] → p = F32.posZero) ∧
      (∀ a rest, ["-5"] = a :: rest → parseFloat long a = .ok p) :=
  ⟨by decide, fun long =>
    principal_used long ["-5"] [] 1 "The amount to pay is:  -5\n" (by decide)
      (by rw [Execute_of_literal long "-5" [] _ 1 (ofInt (-5)) (by decide) (by decide)]; decide)⟩

/-- C10: when there is at least one positional argument, the validator accepts
the invocation and the outcome of `validateBillArgs`, of `BillImpl` and of the
whole command (success or fatal error, and the printed result) depends only on
the first argument, the splits and numPeople: two invocations that differ only
in the further positional arguments behave identically, and as the invocation
with the first argument alone. -/
theorem extra_args_ignored (long : String → Except NumError F32) (a : String)
    (rest rest' : List String) (s : List F32) (n : Int) :
    validateBillArgs (a :: rest) s = .ok () ∧
    validateBillArgs (a :: rest) s = validateBillArgs (a :: rest') s ∧
    BillImpl long (a :: rest) s n = BillImpl long (a :: rest') s n ∧
    Execute long (a :: rest) s n = Execute long (a :: rest') s n ∧
    Execute long (a :: rest) s n = Execute long [a] s n := by
  refine ⟨validateBillArgs_cons a rest s, ?_, rfl, ?_, ?_⟩
  · rw [validateBillArgs_cons, validateBillArgs_cons]
  · rw [Execute_cons, Execute_cons]; rfl
  · rw [Execute_cons, Execute_cons]; rfl

/-- Witness of C10: the invocations `bill 50 x y` and `bill 50`. -/
theorem extra_args_ignored_witness :
    validateBillArgs ["50", "x", "y"] [ofInt 10, ofInt 10] = .ok () ∧
    ∀ long, Execute long ["50", "x", "y"] [ofInt 10, ofInt 10] 2 =
      Execute long ["50"] [ofInt 10, ofInt 10] 2 :=
  ⟨by decide, fun long =>
    (extra_args_ignored long "50" ["x", "y"] [] [ofInt 10, ofInt 10] 2).2.2.2.2⟩

end Bill
